import Mathlib

/-!
Verification of the CSV-to-JSON converter (`src/converter.py`).

Strings are modelled as `List Char`; the destination file is modelled as the
list of characters written to it.  The source file is modelled as the list of
results of successive `readline` calls (each line keeps its trailing newline,
except possibly the last; an exhausted file yields the empty string).
-/

/-- Whitespace characters removed by Python `str.strip`: the characters `c`
with `c.isspace()` true, namely tab through carriage return (`09`-`0d`), the
separators `1c`-`1f`, the space, next line (`85`), no-break space (`a0`),
Ogham space mark (`1680`), the Unicode spaces `2000`-`200a`, the line and
paragraph separators (`2028`, `2029`), narrow no-break space (`202f`),
medium mathematical space (`205f`) and ideographic space (`3000`). -/
def isPySpace (c : Char) : Bool :=
  (0x09 ≤ c.toNat && c.toNat ≤ 0x0d) || c.toNat == 0x20 ||
  (0x1c ≤ c.toNat && c.toNat ≤ 0x1f) || c.toNat == 0x85 || c.toNat == 0xa0 ||
  c.toNat == 0x1680 || (0x2000 ≤ c.toNat && c.toNat ≤ 0x200a) ||
  c.toNat == 0x2028 || c.toNat == 0x2029 || c.toNat == 0x202f ||
  c.toNat == 0x205f || c.toNat == 0x3000

/-- Python `value.strip()`: drop whitespace from both ends. -/
def pyStrip (v : List Char) : List Char :=
  ((v.dropWhile isPySpace).reverse.dropWhile isPySpace).reverse

/-- Python `value.replace` of a doubled double-quote by a single one,
scanning left to right over non-overlapping occurrences
(`converter.py` line 87). -/
def unescape : List Char → List Char
  | [] => []
  | [c] => [c]
  | a :: b :: rest =>
    if a = '"' ∧ b = '"' then '"' :: unescape rest
    else a :: unescape (b :: rest)

/-- Python lines 83-84: if the value starts and ends with a double quote,
take the slice `value[1:-1]` (for a one-character value both tests hold and
the slice is empty). -/
def stripOuterQuotes (v : List Char) : List Char :=
  if v.head? = some '"' ∧ v.getLast? = some '"' then (v.drop 1).dropLast else v

/-- Embedding of `CsvToJsonConverter.normalize_value` (lines 77-89):
strip whitespace, then remove one pair of surrounding quotes, then
unescape doubled quotes. -/
def normalize_value (value : List Char) : List Char :=
  unescape (stripOuterQuotes (pyStrip value))

/-- Python lines 54-55: remove one trailing newline character if present. -/
def stripNewline (line : List Char) : List Char :=
  if line.getLast? = some '\n' then line.dropLast else line

/-- Scanner loop of `parse_line` (lines 57-73): `q` is `quotes_number` and
`cur` holds the characters of the current field (the slice from
`start_index` to the scan position).  A comma met while `q` is even closes
the current field; a double quote increments `q` and stays in the field. -/
def parseLineLoop (cs : List Char) (q : Nat) (cur : List Char) : List (List Char) :=
  match cs with
  | [] => [normalize_value cur]
  | c :: rest =>
    if c = ',' ∧ q % 2 = 0 then normalize_value cur :: parseLineLoop rest q []
    else if c = '"' then parseLineLoop rest (q + 1) (cur ++ [c])
    else parseLineLoop rest q (cur ++ [c])

/-- Embedding of `CsvToJsonConverter.parse_line` (lines 49-75). -/
def parse_line (line : List Char) : List (List Char) :=
  parseLineLoop (stripNewline line) 0 []

/-! Specification-side description of the split performed by `parse_line`:
the qualifying separators are the commas whose running count of preceding
double quotes is even, and the fields are the slices between them. -/

/-- Indices of qualifying separators when the scan starts with `q` quotes
already counted. -/
def sepIndicesFrom (cs : List Char) (q : Nat) : List Nat :=
  (List.range cs.length).filter
    (fun i => decide (cs.get? i = some ',' ∧ (q + (cs.take i).count '"') % 2 = 0))

/-- Indices of commas whose running count of preceding double quotes is even. -/
def sepIndices (cs : List Char) : List Nat :=
  (List.range cs.length).filter
    (fun i => decide (cs.get? i = some ',' ∧ ((cs.take i).count '"') % 2 = 0))

/-- Slices of `cs` delimited by the (increasing) separator positions `idxs`,
starting at position `start`. -/
def sliceFields (cs : List Char) (start : Nat) : List Nat → List (List Char)
  | [] => [cs.drop start]
  | i :: is => ((cs.take i).drop start) :: sliceFields cs (i + 1) is

/-- Apply a function to the first element of a list, if any. -/
def mapHead (f : List Char → List Char) : List (List Char) → List (List Char)
  | [] => []
  | x :: xs => f x :: xs

/-! Embedding of the record construction and JSON serialization used by
`write_json_data` (lines 105-108): `dict(zip(headers, line))` followed by
`json.dumps`. -/

/-- Python dict assignment: an existing key keeps its slot and gets the new
value, a new key is appended at the end. -/
def dictInsert (m : List (List Char × List Char)) (k v : List Char) :
    List (List Char × List Char) :=
  match m with
  | [] => [(k, v)]
  | (k', v') :: rest => if k' = k then (k', v) :: rest else (k', v') :: dictInsert rest k v

/-- Lookup in the association-list model of a Python dict. -/
def dictLookup (m : List (List Char × List Char)) (k : List Char) :
    Option (List Char) :=
  match m with
  | [] => none
  | (k', v) :: rest => if k' = k then some v else dictLookup rest k

/-- Build a dict from a list of key-value pairs, inserting left to right. -/
def dictFromPairs (ps : List (List Char × List Char)) :
    List (List Char × List Char) :=
  ps.foldl (fun m p => dictInsert m p.1 p.2) []

/-- Python `dict(zip(headers, line))`. -/
def recordOf (headers line : List (List Char)) : List (List Char × List Char) :=
  dictFromPairs (headers.zip line)

/-- Lower-case hexadecimal digit, as produced by `json.dumps`. -/
def hexDigit (n : Nat) : Char :=
  if n < 10 then Char.ofNat (48 + n) else Char.ofNat (87 + n)

/-- Four-digit hexadecimal rendering of `n`, for a `\uXXXX` escape. -/
def hex4 (n : Nat) : List Char :=
  [hexDigit (n / 4096 % 16), hexDigit (n / 256 % 16), hexDigit (n / 16 % 16),
   hexDigit (n % 16)]

/-- JSON `\uXXXX` escape of the code unit `n`. -/
def uEscape (n : Nat) : List Char :=
  '\\' :: 'u' :: hex4 n

/-- Escape of one character in a JSON string as produced by `json.dumps` with
its default `ensure_ascii=True`: backslash escapes for the quote, the
backslash and the common control characters, `\uXXXX` for every other
character outside the printable ASCII range, surrogate pairs beyond the
basic multilingual plane. -/
def jsonEscapeChar (c : Char) : List Char :=
  if c = '"' then ['\\', '"']
  else if c = '\\' then ['\\', '\\']
  else if c = '\n' then ['\\', 'n']
  else if c = '\t' then ['\\', 't']
  else if c = '\r' then ['\\', 'r']
  else if c = '\x08' then ['\\', 'b']
  else if c = '\x0c' then ['\\', 'f']
  else if 0x20 ≤ c.toNat ∧ c.toNat ≤ 0x7e then [c]
  else if c.toNat < 0x10000 then uEscape c.toNat
  else uEscape (0xd800 + (c.toNat - 0x10000) / 0x400) ++
       uEscape (0xdc00 + (c.toNat - 0x10000) % 0x400)

/-- JSON string literal for `s`. -/
def jsonQuote (s : List Char) : List Char :=
  '"' :: (s.map jsonEscapeChar).flatten ++ ['"']

/-- One `"key": "value"` member of a JSON object (default `json.dumps`
separators). -/
def dumpEntry (p : List Char × List Char) : List Char :=
  jsonQuote p.1 ++ (": ").data ++ jsonQuote p.2

/-- Rendering of a dict of strings by `json.dumps` with default settings. -/
def dumps (m : List (List Char × List Char)) : List Char :=
  '\x7b' :: List.intercalate ((", ").data) (m.map dumpEntry) ++ ['\x7d']

/-- Class attribute `json_file_header` (line 33). -/
def json_file_header : List Char := ("\x7b\"data\": [").data

/-- Class attribute `json_file_footer` (line 34). -/
def json_file_footer : List Char := ("]\x7d").data

/-- Embedding of `write_json_data` (lines 105-108): the chunk written to the
destination for one parsed line. -/
def write_json_data (headers line : List (List Char)) : List Char :=
  dumps (recordOf headers line) ++ (", ").data

/-- Embedding of `get_csv_headers` (lines 91-94): parse the first
`readline` result (the empty string when the source is empty). -/
def get_csv_headers (src : List (List Char)) : List (List Char) :=
  parse_line (src.headD [])

/-- Embedding of the generator `source_file_lines` (lines 96-103) as resumed
after the header was consumed: it yields lines until the first empty read. -/
def source_file_lines (src : List (List Char)) : List (List Char) :=
  (src.drop 1).takeWhile (fun l => !l.isEmpty)

/-- Content of the destination just before `_write_json_file_footer` runs:
the opening fragment followed by one serialized record plus `', '` per data
line. -/
def preFooter (src : List (List Char)) : List Char :=
  json_file_header ++
    ((source_file_lines src).map
      (fun line => write_json_data (get_csv_headers src) (parse_line line))).flatten

/-- Embedding of `_write_json_file_footer` (lines 113-119): seek two
characters back from the end and overwrite from there with the closing
fragment. -/
def applyFooter (content : List Char) : List Char :=
  content.take (content.length - 2) ++ json_file_footer

/-- Embedding of `_convert_data` (lines 36-47): final destination content for
a given source. -/
def convert_data (src : List (List Char)) : List Char :=
  applyFooter (preFooter src)

/-! Control-flow model of `BaseConverter.convert` (lines 17-19) under Python
exception semantics: the method body is the statement sequence
`self._convert_data(); self._close_files()` with no `try`/`finally`, so an
exception raised by the first statement aborts the method before the second
statement runs.  The `outcome` parameter says whether `_convert_data`
raised (and with which error code). -/

/-- Observable actions of a `convert` run. -/
inductive ConvEvent where
  | convertData : ConvEvent
  | closeSource : ConvEvent
  | closeDest : ConvEvent
deriving DecidableEq

/-- Embedding of `_close_files` (lines 24-26). -/
def closeFilesTrace : List ConvEvent :=
  [ConvEvent.closeSource, ConvEvent.closeDest]

/-- Trace of actions performed by `convert` when `_convert_data` finishes
normally (`outcome = none`) or raises error `e` (`outcome = some e`). -/
def convertTrace (outcome : Option Nat) : List ConvEvent :=
  match outcome with
  | none => ConvEvent.convertData :: closeFilesTrace
  | some _ => [ConvEvent.convertData]

/-! Boolean predicates used to state that a value is already in normal form. -/

/-- Neither end of `v` is a whitespace character. -/
def noEdgeWS (v : List Char) : Bool :=
  (match v.head? with | none => true | some c => !isPySpace c) &&
  (match v.getLast? with | none => true | some c => !isPySpace c)

/-- No two consecutive characters of `v` are both double quotes. -/
def noDoubledQuotes : List Char → Bool
  | [] => true
  | [_] => true
  | a :: b :: rest => !(a == '"' && b == '"') && noDoubledQuotes (b :: rest)

/-- Concatenation of a list of strings with a separator between consecutive
elements (and no trailing separator). -/
def joinSep (sep : List Char) : List (List Char) → List Char
  | [] => []
  | [x] => x
  | x :: y :: tl => x ++ sep ++ joinSep sep (y :: tl)

/-- Value of the last pair among `ps` whose key is `k`, if any. -/
def lastValue (ps : List (List Char × List Char)) (k : List Char) :
    Option (List Char) :=
  ((ps.filter (fun p => decide (p.1 = k))).getLast?).map Prod.snd

/-! Helper lemmas. -/

theorem dropWhile_eq_self_of_headNot (f : Char → Bool) (v : List Char)
    (h : ∀ c, v.head? = some c → f c = false) : v.dropWhile f = v := by
  cases v with
  | nil => rfl
  | cons c rest => simp [List.dropWhile, h c rfl]

theorem pyStrip_eq_self (v : List Char) (h : noEdgeWS v = true) : pyStrip v = v := by
  unfold noEdgeWS at h
  rw [Bool.and_eq_true] at h
  have h1 : v.dropWhile isPySpace = v := by
    apply dropWhile_eq_self_of_headNot
    intro c hc
    have := h.1
    rw [hc] at this
    simpa using this
  have h2 : v.reverse.dropWhile isPySpace = v.reverse := by
    apply dropWhile_eq_self_of_headNot
    intro c hc
    rw [List.head?_reverse] at hc
    have := h.2
    rw [hc] at this
    simpa using this
  unfold pyStrip
  rw [h1, h2, List.reverse_reverse]

theorem unescape_eq_self (v : List Char) (h : noDoubledQuotes v = true) :
    unescape v = v := by
  induction v with
  | nil => rfl
  | cons a rest ih =>
    cases rest with
    | nil => rfl
    | cons b r =>
      have h' : (¬a = '"' ∨ ¬b = '"') ∧ noDoubledQuotes (b :: r) = true := by
        simpa [noDoubledQuotes] using h
      have h'' : ¬(a = '"' ∧ b = '"') := by
        rcases h'.1 with h1 | h1 <;> exact fun hc => h1 (by simp [hc.1, hc.2])
      simp only [unescape, if_neg h'', ih h'.2]

/-! Claim theorems. -/

/-- C2: `normalize_value` is exactly the composition strip, then outer-quote
removal, then unescaping of doubled quotes, in that order; each of the five
other orders of the three steps disagrees with it on some input. -/
theorem C2_normalize_order :
    (∀ v, normalize_value v = unescape (stripOuterQuotes (pyStrip v)))
    ∧ (∃ v, stripOuterQuotes (unescape (pyStrip v)) ≠ normalize_value v)
    ∧ (∃ v, unescape (pyStrip (stripOuterQuotes v)) ≠ normalize_value v)
    ∧ (∃ v, pyStrip (unescape (stripOuterQuotes v)) ≠ normalize_value v)
    ∧ (∃ v, stripOuterQuotes (pyStrip (unescape v)) ≠ normalize_value v)
    ∧ (∃ v, pyStrip (stripOuterQuotes (unescape v)) ≠ normalize_value v) :=
  ⟨fun _ => rfl,
   ⟨("\"\"\"\"").data, by decide⟩,
   ⟨(" \"a\"").data, by decide⟩,
   ⟨(" \"a\"").data, by decide⟩,
   ⟨("\"\"\"\"").data, by decide⟩,
   ⟨("\"\"\"\"").data, by decide⟩⟩

/-- C7: parsing the single-field line `"value with ""quotes"" and, comma"`
yields exactly one field, `value with "quotes" and, comma`: the quoted comma
is not a separator and the doubled quotes are unescaped. -/
theorem C7_round_trip_field :
    parse_line (("\"value with \"\"quotes\"\" and, comma\"").data)
      = [("value with \"quotes\" and, comma").data] := by
  decide

/-- C8: a value with no leading or trailing whitespace, not both starting and
ending with a double quote, and containing no doubled double quote is left
unchanged by `normalize_value`. -/
theorem C8_normalize_idempotent (v : List Char)
    (h1 : noEdgeWS v = true)
    (h2 : ¬(v.head? = some '"' ∧ v.getLast? = some '"'))
    (h3 : noDoubledQuotes v = true) :
    normalize_value v = v := by
  unfold normalize_value
  rw [pyStrip_eq_self v h1]
  unfold stripOuterQuotes
  rw [if_neg h2]
  exact unescape_eq_self v h3

/-- Witness for C8 at the concrete value `abc`. -/
theorem C8_witness :
    noEdgeWS (("abc").data) = true
    ∧ ¬((("abc").data).head? = some '"' ∧ (("abc").data).getLast? = some '"')
    ∧ noDoubledQuotes (("abc").data) = true
    ∧ normalize_value (("abc").data) = ("abc").data :=
  ⟨by decide, by decide, by decide,
   C8_normalize_idempotent (("abc").data) (by decide) (by decide) (by decide)⟩

/-- C9: the one-character value consisting of a single double quote
normalizes to the empty string, and so does every value whose stripped form
is that single double quote. -/
theorem C9_lone_quote_normalizes_to_empty :
    normalize_value ['"'] = []
    ∧ ∀ v : List Char, pyStrip v = ['"'] → normalize_value v = [] := by
  refine ⟨by decide, ?_⟩
  intro v h
  unfold normalize_value
  rw [h]
  decide

/-- Witness for C9 at the concrete value consisting of a quote surrounded by
spaces. -/
theorem C9_witness :
    pyStrip ((" \" ").data) = ['"']
    ∧ normalize_value ((" \" ").data) = [] :=
  ⟨by decide, C9_lone_quote_normalizes_to_empty.2 ((" \" ").data) (by decide)⟩

/-- C6 counterexample: when `_convert_data` raises, the trace of `convert`
contains neither stream-closing action. -/
theorem C6_counterexample :
    ¬(ConvEvent.closeSource ∈ convertTrace (some 0)
      ∧ ConvEvent.closeDest ∈ convertTrace (some 0)) := by
  decide

/-- C6 (amended): `convert` closes both streams only on normal completion;
when `_convert_data` raises, the method stops before `_close_files` and
neither stream is closed by `convert`. -/
theorem C6_close_only_on_normal_exit (o : Option Nat) :
    (o = none → convertTrace o
      = [ConvEvent.convertData, ConvEvent.closeSource, ConvEvent.closeDest])
    ∧ (∀ e, o = some e → convertTrace o = [ConvEvent.convertData]) := by
  constructor
  · rintro rfl; rfl
  · rintro e rfl; rfl

/-- Witness for C6 at both outcomes. -/
theorem C6_witness :
    convertTrace none
      = [ConvEvent.convertData, ConvEvent.closeSource, ConvEvent.closeDest]
    ∧ convertTrace (some 0) = [ConvEvent.convertData] :=
  ⟨(C6_close_only_on_normal_exit none).1 rfl,
   (C6_close_only_on_normal_exit (some 0)).2 0 rfl⟩

/-! Lemmas about the dict model. -/

theorem dictLookup_insert (m : List (List Char × List Char)) (k v k' : List Char) :
    dictLookup (dictInsert m k v) k' = if k = k' then some v else dictLookup m k' := by
  induction m with
  | nil => simp [dictInsert, dictLookup]
  | cons p rest ih =>
    obtain ⟨k0, v0⟩ := p
    by_cases h0 : k0 = k
    · subst h0
      by_cases h1 : k0 = k' <;> simp [dictInsert, dictLookup, h1]
    · by_cases h1 : k0 = k'
      · have hkk : ¬k = k' := fun hh => h0 (h1.trans hh.symm)
        have hkk' : ¬k' = k := fun hh => h0 (h1.trans hh)
        simp [dictInsert, dictLookup, h0, h1, hkk, hkk']
      · simp [dictInsert, dictLookup, h0, h1, ih]

theorem lastValue_cons (p : List Char × List Char)
    (ps : List (List Char × List Char)) (k : List Char) :
    lastValue (p :: ps) k
      = (lastValue ps k).orElse (fun _ => if p.1 = k then some p.2 else none) := by
  by_cases hp : p.1 = k
  · unfold lastValue
    rw [List.filter_cons_of_pos (by simp [hp])]
    cases hf : ps.filter (fun q => decide (q.1 = k)) with
    | nil => simp [hf, hp, Option.orElse]
    | cons q qs =>
      have hsome : ∃ x, (q :: qs).getLast? = some x :=
        Option.isSome_iff_exists.mp (by simp)
      obtain ⟨x, hx⟩ := hsome
      simp [List.getLast?_cons_cons, hf, hx, Option.orElse]
  · unfold lastValue
    rw [List.filter_cons_of_neg (by simp [hp])]
    cases hv : ((ps.filter (fun q => decide (q.1 = k))).getLast?).map Prod.snd <;>
      simp_all [Option.orElse, hp]

theorem dictLookup_foldl (ps : List (List Char × List Char)) :
    ∀ (m : List (List Char × List Char)) (k : List Char),
    dictLookup (List.foldl (fun acc p => dictInsert acc p.1 p.2) m ps) k
      = (lastValue ps k).orElse (fun _ => dictLookup m k) := by
  induction ps with
  | nil => intro m k; rfl
  | cons p rest ih =>
    intro m k
    rw [List.foldl_cons, ih, lastValue_cons, dictLookup_insert]
    cases hv : lastValue rest k with
    | some v => simp [hv, Option.orElse]
    | none => by_cases hp : p.1 = k <;> simp [hv, hp, Option.orElse]

theorem memOf_getLast (l : List (List Char × List Char))
    (a : List Char × List Char) (h : l.getLast? = some a) : a ∈ l := by
  induction l with
  | nil => cases h
  | cons x xs ih =>
    cases xs with
    | nil => simp at h; simp [h]
    | cons y ys =>
      rw [List.getLast?_cons_cons] at h
      exact List.mem_cons_of_mem x (ih h)

theorem zip_eq_range_map (H L : List (List Char)) :
    H.zip L = (List.range (min H.length L.length)).map
      (fun i => (H.getD i [], L.getD i [])) := by
  induction H generalizing L with
  | nil => simp
  | cons h hs ih =>
    cases L with
    | nil => simp
    | cons l ls =>
      simp only [List.zip_cons_cons, List.length_cons, Nat.succ_min_succ,
        List.range_succ_eq_map, List.map_cons, List.map_map]
      have hhead : ((h :: hs).getD 0 [], (l :: ls).getD 0 []) = (h, l) := by simp
      rw [hhead, ih ls]
      have hfun : ((fun i => ((h :: hs).getD i [], (l :: ls).getD i [])) ∘ Nat.succ)
          = fun i => (hs.getD i [], ls.getD i []) := by
        funext i
        simp [Function.comp, List.getD_cons_succ]
      rw [hfun]

theorem zip_take_right (H L : List (List Char)) :
    H.zip L = H.zip (L.take H.length) := by
  induction H generalizing L with
  | nil => simp
  | cons h hs ih =>
    cases L with
    | nil => simp
    | cons l ls =>
      simp only [List.length_cons, List.take_succ_cons, List.zip_cons_cons]
      rw [← ih]

theorem zip_take_left (H L : List (List Char)) :
    H.zip L = (H.take L.length).zip L := by
  induction H generalizing L with
  | nil => simp
  | cons h hs ih =>
    cases L with
    | nil => simp
    | cons l ls =>
      simp only [List.length_cons, List.take_succ_cons, List.zip_cons_cons]
      rw [← ih]

theorem dictLookup_recordOf (H L : List (List Char)) (k : List Char) :
    dictLookup (recordOf H L) k = lastValue (H.zip L) k := by
  unfold recordOf dictFromPairs
  rw [dictLookup_foldl]
  cases hv : lastValue (H.zip L) k <;> simp [hv, Option.orElse, dictLookup]

/-- C10: with duplicated header names the record maps a name to the value at
the last in-range index carrying it (the lookup result is the last matching
pair of `zip headers line`); the record can hold strictly fewer pairs than
`min` of the two lengths, as on headers `a,a` with values `1,2`. -/
theorem C10_duplicate_headers :
    (∀ H L k, dictLookup (recordOf H L) k = lastValue (H.zip L) k)
    ∧ recordOf [("a").data, ("a").data] [("1").data, ("2").data]
        = [(("a").data, ("2").data)]
    ∧ (recordOf [("a").data, ("a").data] [("1").data, ("2").data]).length
        < min [("a").data, ("a").data].length [("1").data, ("2").data].length :=
  ⟨dictLookup_recordOf, by decide, by decide⟩

/-- C5: the record built for a data line pairs the i-th header with the i-th
value for i below the shorter length; surplus values and surplus headers are
dropped silently, every key of the record occurs among the first
`length line` headers, and header `name,age` with data line `Alice` yields
exactly the binding of `name` to `Alice`. -/
theorem C5_record_pairing :
    (∀ H L, recordOf H L
        = dictFromPairs ((List.range (min H.length L.length)).map
            (fun i => (H.getD i [], L.getD i []))))
    ∧ (∀ H L, recordOf H L = recordOf H (L.take H.length))
    ∧ (∀ H L, recordOf H L = recordOf (H.take L.length) L)
    ∧ (∀ H L k, dictLookup (recordOf H L) k = none ∨ k ∈ H.take L.length)
    ∧ recordOf [("name").data, ("age").data] [("Alice").data]
        = [(("name").data, ("Alice").data)] := by
  refine ⟨?_, ?_, ?_, ?_, by decide⟩
  · intro H L
    unfold recordOf
    rw [zip_eq_range_map]
  · intro H L
    unfold recordOf
    rw [← zip_take_right]
  · intro H L
    unfold recordOf
    rw [← zip_take_left]
  · intro H L k
    rw [dictLookup_recordOf]
    cases hv : lastValue (H.zip L) k with
    | none => exact Or.inl rfl
    | some v =>
      refine Or.inr ?_
      unfold lastValue at hv
      obtain ⟨p, hp⟩ : ∃ p,
          ((H.zip L).filter (fun q => decide (q.1 = k))).getLast? = some p := by
        cases hg : ((H.zip L).filter (fun q => decide (q.1 = k))).getLast? with
        | none => rw [hg] at hv; simp at hv
        | some p => exact ⟨p, rfl⟩
      have hmem : p ∈ (H.zip L).filter (fun q => decide (q.1 = k)) :=
        memOf_getLast _ p hp
      have hmem2 := List.mem_filter.mp hmem
      have hk : p.1 = k := of_decide_eq_true hmem2.2
      have hz : p ∈ (H.take L.length).zip L := by
        rw [← zip_take_left]
        exact hmem2.1
      obtain ⟨a, b⟩ := p
      have := (List.of_mem_zip hz).1
      rw [← hk]
      exact this

/-! Lemmas about the emitted stream. -/

theorem takeWhile_nonEmpty_eq_self (ds : List (List Char))
    (h : ∀ l ∈ ds, l ≠ []) : ds.takeWhile (fun l => !l.isEmpty) = ds := by
  induction ds with
  | nil => rfl
  | cons d tl ih =>
    rw [List.takeWhile_cons]
    have hd : (!d.isEmpty) = true := by
      have := h d (List.mem_cons_self d tl)
      simpa [List.isEmpty_iff] using this
    rw [hd]
    simp only [if_pos trivial]
    rw [ih (fun l hl => h l (List.mem_cons_of_mem d hl))]

theorem flatten_map_append_sep (sep : List Char) (xs : List (List Char))
    (h : xs ≠ []) :
    (xs.map (fun x => x ++ sep)).flatten = joinSep sep xs ++ sep := by
  induction xs with
  | nil => exact absurd rfl h
  | cons x tl ih =>
    cases tl with
    | nil => simp [joinSep]
    | cons y ys =>
      rw [List.map_cons, List.flatten_cons, ih (by simp)]
      simp [joinSep, List.append_assoc]

theorem take_sub_two_append (A s : List Char) (hs : s.length = 2) :
    (A ++ s).take ((A ++ s).length - 2) = A := by
  rw [List.length_append, hs, Nat.add_sub_cancel]
  exact List.take_left A s

theorem drop_sub_two_append (A s : List Char) (hs : s.length = 2) :
    (A ++ s).drop ((A ++ s).length - 2) = s := by
  rw [List.length_append, hs, Nat.add_sub_cancel]
  exact List.drop_left A s

/-- C4: the footer step always overwrites the last two characters of the
written content with the closing fragment; when at least one data record was
written the two discarded characters are exactly the trailing comma-space
separator, and for a data-less source the two discarded characters come from
the opening fragment, giving the corrupt final content. -/
theorem C4_footer_seek (src : List (List Char)) :
    convert_data src
      = (preFooter src).take ((preFooter src).length - 2) ++ json_file_footer
    ∧ (source_file_lines src ≠ [] →
        (preFooter src).drop ((preFooter src).length - 2) = (", ").data)
    ∧ (∀ hdr, convert_data [hdr] = ("\x7b\"data\":]\x7d").data) := by
  refine ⟨rfl, ?_, fun hdr => rfl⟩
  intro hne
  have hobjs : (source_file_lines src).map
      (fun line => write_json_data (get_csv_headers src) (parse_line line)) ≠ [] := by
    simpa using hne
  have hflat : ((source_file_lines src).map
      (fun line => write_json_data (get_csv_headers src) (parse_line line))).flatten
      = joinSep ((", ").data) ((source_file_lines src).map
          (fun line => dumps (recordOf (get_csv_headers src) (parse_line line))))
        ++ (", ").data := by
    rw [show ((source_file_lines src).map
        (fun line => write_json_data (get_csv_headers src) (parse_line line)))
        = ((source_file_lines src).map
            (fun line => dumps (recordOf (get_csv_headers src) (parse_line line)))).map
          (fun x => x ++ (", ").data) from by rw [List.map_map]; rfl]
    exact flatten_map_append_sep _ _ (by simpa using hne)
  have hpre : preFooter src
      = (json_file_header ++ joinSep ((", ").data) ((source_file_lines src).map
          (fun line => dumps (recordOf (get_csv_headers src) (parse_line line)))))
        ++ (", ").data := by
    unfold preFooter
    rw [hflat, ← List.append_assoc]
  rw [hpre]
  exact drop_sub_two_append _ ((", ").data) (by decide)

/-- Witness for C4 on a source with a header line and one data line. -/
theorem C4_witness :
    source_file_lines [("a\n").data, ("1\n").data] ≠ []
    ∧ (preFooter [("a\n").data, ("1\n").data]).drop
        ((preFooter [("a\n").data, ("1\n").data]).length - 2) = (", ").data :=
  ⟨by decide, (C4_footer_seek [("a\n").data, ("1\n").data]).2.1 (by decide)⟩

/-- C3 counterexample: for a well-formed source with a header line and zero
data lines the output is not of the claimed shape (opening fragment, zero
objects, closing fragment); the footer seek instead corrupts the opening
fragment. -/
theorem C3_counterexample :
    convert_data [("name,age\n").data]
        ≠ json_file_header ++ joinSep ((", ").data) [] ++ json_file_footer
    ∧ convert_data [("name,age\n").data] = ("\x7b\"data\":]\x7d").data := by
  constructor
  · decide
  · rfl

/-- C3 (amended): for a well-formed source with a header line and at least
one data line, all lines non-empty with the header's field count, the final
content is the opening fragment, the serialized records joined by `, ` with
no trailing separator, and the closing fragment; the array holds exactly one
object per data line. -/
theorem C3_output_shape (hdr : List Char) (ds : List (List Char))
    (hne : ∀ l ∈ ds, l ≠ [])
    (_hsame : ∀ l ∈ ds, (parse_line l).length = (parse_line hdr).length)
    (hN : ds ≠ []) :
    convert_data (hdr :: ds)
      = json_file_header
        ++ joinSep ((", ").data)
             (ds.map (fun l => dumps (recordOf (parse_line hdr) (parse_line l))))
        ++ json_file_footer
    ∧ (ds.map (fun l => dumps (recordOf (parse_line hdr) (parse_line l)))).length
        = ds.length := by
  refine ⟨?_, List.length_map _ _⟩
  have hlines : source_file_lines (hdr :: ds) = ds := by
    unfold source_file_lines
    simpa using takeWhile_nonEmpty_eq_self ds hne
  have hobjs : ds.map
      (fun line => write_json_data (get_csv_headers (hdr :: ds)) (parse_line line))
      = (ds.map (fun l => dumps (recordOf (parse_line hdr) (parse_line l)))).map
          (fun x => x ++ (", ").data) := by
    rw [List.map_map]
    apply List.map_congr_left
    intro l _
    rfl
  have hpre : preFooter (hdr :: ds)
      = (json_file_header ++ joinSep ((", ").data)
           (ds.map (fun l => dumps (recordOf (parse_line hdr) (parse_line l)))))
        ++ (", ").data := by
    unfold preFooter
    rw [hlines, hobjs, flatten_map_append_sep _ _ (by simpa using hN),
      ← List.append_assoc]
  unfold convert_data applyFooter
  rw [hpre, take_sub_two_append _ ((", ").data) (by decide), List.append_assoc]

/-- Witness for C3 on the source `a,b` with the single data line `1,2`. -/
theorem C3_witness :
    (∀ l ∈ [("1,2").data], l ≠ ([] : List Char))
    ∧ (∀ l ∈ [("1,2").data],
        (parse_line l).length = (parse_line (("a,b\n").data)).length)
    ∧ (convert_data [("a,b\n").data, ("1,2").data]
        = json_file_header
          ++ joinSep ((", ").data)
               ([("1,2").data].map
                 (fun l => dumps (recordOf (parse_line (("a,b\n").data)) (parse_line l))))
          ++ json_file_footer
       ∧ ([("1,2").data].map
           (fun l => dumps (recordOf (parse_line (("a,b\n").data)) (parse_line l)))).length
          = [("1,2").data].length) :=
  ⟨by decide, by decide,
   C3_output_shape (("a,b\n").data) [("1,2").data] (by decide) (by decide) (by decide)⟩

/-! Lemmas relating the scanner loop of `parse_line` to the
specification-side separator indices and slices. -/

theorem filter_map_succ (p : Nat → Bool) (l : List Nat) :
    (l.map Nat.succ).filter p = (l.filter (fun i => p (i + 1))).map Nat.succ := by
  induction l with
  | nil => rfl
  | cons a tl ih =>
    simp only [List.map_cons, List.filter_cons, Nat.succ_eq_add_one]
    by_cases hp : p (a + 1) <;> simp [hp, ih]

theorem sepIndicesFrom_cons (c : Char) (rest : List Char) (q : Nat) :
    sepIndicesFrom (c :: rest) q
      = (if c = ',' ∧ q % 2 = 0 then [0] else [])
        ++ (sepIndicesFrom rest (q + if c = '"' then 1 else 0)).map Nat.succ := by
  unfold sepIndicesFrom
  rw [List.length_cons, List.range_succ_eq_map, List.filter_cons, filter_map_succ]
  have htail : (List.range rest.length).filter
      (fun i => decide ((c :: rest).get? (i + 1) = some ','
        ∧ (q + ((c :: rest).take (i + 1)).count '"') % 2 = 0))
      = (List.range rest.length).filter
      (fun i => decide (rest.get? i = some ','
        ∧ ((q + if c = '"' then 1 else 0) + (rest.take i).count '"') % 2 = 0)) := by
    apply List.filter_congr
    intro i _
    apply decide_eq_decide.mpr
    simp only [List.get?_cons_succ, List.take_succ_cons, List.count_cons]
    refine and_congr Iff.rfl ?_
    by_cases hc : c = '"'
    · simp [hc]
      omega
    · simp [hc]
  rw [htail]
  have hhead : decide ((c :: rest).get? 0 = some ','
      ∧ (q + ((c :: rest).take 0).count '"') % 2 = 0)
      = decide (c = ',' ∧ q % 2 = 0) := by
    apply decide_eq_decide.mpr
    simp
  rw [hhead]
  by_cases hsep : c = ',' ∧ q % 2 = 0
  · simp [hsep]
  · simp [hsep]

theorem sliceFields_shift (cs : List Char) (c : Char) (idxs : List Nat) :
    ∀ s, sliceFields (c :: cs) (s + 1) (idxs.map Nat.succ) = sliceFields cs s idxs := by
  induction idxs with
  | nil => intro s; simp [sliceFields]
  | cons i is ih =>
    intro s
    simp only [List.map_cons, Nat.succ_eq_add_one, sliceFields, List.take_succ_cons,
      List.drop_succ_cons]
    rw [ih (i + 1)]

theorem sliceFields_map_succ (c : Char) (rest : List Char) (idxs : List Nat) :
    sliceFields (c :: rest) 0 (idxs.map Nat.succ)
      = mapHead (fun f => c :: f) (sliceFields rest 0 idxs) := by
  cases idxs with
  | nil => simp [sliceFields, mapHead]
  | cons i is =>
    simp only [List.map_cons, Nat.succ_eq_add_one, sliceFields, mapHead,
      List.take_succ_cons, List.drop_zero]
    rw [sliceFields_shift rest c is (i + 1)]

theorem mapHead_mapHead (f g : List Char → List Char) (xs : List (List Char)) :
    mapHead f (mapHead g xs) = mapHead (fun x => f (g x)) xs := by
  cases xs <;> rfl

theorem mapHead_nil_append (xs : List (List Char)) :
    mapHead (fun f => [] ++ f) xs = xs := by
  cases xs <;> simp [mapHead]

theorem parseLineLoop_eq (cs : List Char) : ∀ (q : Nat) (cur : List Char),
    parseLineLoop cs q cur
      = (mapHead (fun f => cur ++ f) (sliceFields cs 0 (sepIndicesFrom cs q))).map
          normalize_value := by
  induction cs with
  | nil =>
    intro q cur
    simp [parseLineLoop, sepIndicesFrom, sliceFields, mapHead]
  | cons c rest ih =>
    intro q cur
    rw [sepIndicesFrom_cons]
    by_cases hsep : c = ',' ∧ q % 2 = 0
    · rw [if_pos hsep]
      have hstep : parseLineLoop (c :: rest) q cur
          = normalize_value cur :: parseLineLoop rest q [] := by
        simp only [parseLineLoop]
        rw [if_pos hsep]
      have hq0 : (q + if c = '"' then 1 else 0) = q := by
        have hc : ¬c = '"' := by rw [hsep.1]; decide
        simp [hc]
      have hslice : sliceFields (c :: rest) 0
          ((0 : Nat) :: (sepIndicesFrom rest q).map Nat.succ)
          = [] :: sliceFields rest 0 (sepIndicesFrom rest q) := by
        simp only [sliceFields, List.take_zero, List.drop_zero]
        rw [show (0 + 1 : Nat) = 1 from rfl, sliceFields_shift rest c _ 0]
      rw [hstep, ih q [], hq0, List.singleton_append, hslice, mapHead_nil_append]
      simp [mapHead]
    · rw [if_neg hsep, List.nil_append]
      have hstep : parseLineLoop (c :: rest) q cur
          = parseLineLoop rest (q + if c = '"' then 1 else 0) (cur ++ [c]) := by
        by_cases hc : c = '"' <;> simp only [parseLineLoop] <;>
          rw [if_neg hsep] <;> simp [hc]
      rw [hstep, ih, sliceFields_map_succ, mapHead_mapHead]
      have hfun : (fun f => (cur ++ [c]) ++ f) = (fun x : List Char => cur ++ (c :: x)) := by
        funext x
        simp
      rw [hfun]

theorem sepIndices_eq (cs : List Char) : sepIndices cs = sepIndicesFrom cs 0 := by
  unfold sepIndices sepIndicesFrom
  apply List.filter_congr
  intro i _
  simp

theorem sliceFields_length (cs : List Char) (idxs : List Nat) :
    ∀ s, (sliceFields cs s idxs).length = idxs.length + 1 := by
  induction idxs with
  | nil => intro s; rfl
  | cons i is ih => intro s; simp [sliceFields, ih]

/-- C1: `parse_line` strips one trailing newline if present, then splits at
exactly the commas whose running count of preceding double quotes is even
(the fields are the normalized slices between those separators); the field
count is one plus the number of qualifying separators, so the result is
never empty, and the empty line yields one empty field. -/
theorem C1_parse_line_split (line : List Char) :
    parse_line line
      = (sliceFields (stripNewline line) 0 (sepIndices (stripNewline line))).map
          normalize_value
    ∧ (parse_line line).length = 1 + (sepIndices (stripNewline line)).length
    ∧ parse_line line ≠ []
    ∧ stripNewline (line ++ ['\n']) = line
    ∧ parse_line ([] : List Char) = [[]] := by
  have h1 : parse_line line
      = (sliceFields (stripNewline line) 0 (sepIndices (stripNewline line))).map
          normalize_value := by
    unfold parse_line
    rw [parseLineLoop_eq, sepIndices_eq, mapHead_nil_append]
  refine ⟨h1, ?_, ?_, ?_, by decide⟩
  · rw [h1, List.length_map, sliceFields_length]
    omega
  · rw [h1]
    intro hemp
    have hlen := congrArg List.length hemp
    rw [List.length_map, sliceFields_length] at hlen
    simp at hlen
  · simp [stripNewline, List.getLast?_concat, List.dropLast_concat]
